import Mathlib

/-!
Shallow embedding of the orchestration core of the adk-go multi-agent
runtime: the runner loop (agent resolution, user-message append,
persist-then-yield event loop, run-config installation) from
`runner/runner.go` and its newer parentmap-based revision, together with
spec-modelled request processors (contents, agent transfer) and the
transfer tool, whose implementations are exercised only through tests in
the repository snapshot.
-/

namespace Adk

/-- Simplified JSON value, the shape of Go `map[string]any` tool arguments
and function-call payloads as they appear in the repository's tests. -/
inductive JsonVal : Type where
  | null : JsonVal
  | str (s : String) : JsonVal
  | num (n : Int) : JsonVal
  | boolean (b : Bool) : JsonVal
  | obj (kvs : List (String × JsonVal)) : JsonVal

/-- JSON escaping of one character, as Go `encoding/json` does for the
characters appearing in this development (quote and backslash). -/
def jsonEscapeChar (c : Char) : String :=
  if c = '"' then "\\\"" else if c = '\\' then "\\\\" else String.singleton c

/-- JSON escaping of a string body. -/
def jsonEscape (s : String) : String :=
  s.data.foldl (fun acc c => acc ++ jsonEscapeChar c) ""

mutual

/-- Compact JSON encoding, as Go `encoding/json.Marshal` produces for the
values in the tests (`null`, strings, objects in key order). -/
def jsonEncode : JsonVal → String
  | .null => "null"
  | .str s => "\"" ++ jsonEscape s ++ "\""
  | .num n => toString n
  | .boolean b => if b then "true" else "false"
  | .obj kvs => "\x7b" ++ jsonEncodeFields kvs ++ "\x7d"

/-- Encodes the comma-separated field list of a JSON object. -/
def jsonEncodeFields : List (String × JsonVal) → String
  | [] => ""
  | [(k, v)] => "\"" ++ jsonEscape k ++ "\":" ++ jsonEncode v
  | (k, v) :: rest =>
      "\"" ++ jsonEscape k ++ "\":" ++ jsonEncode v ++ "," ++ jsonEncodeFields rest

end

/-- One part of a model turn: text, a function (tool) call with JSON
arguments, or a function (tool) response with a JSON result.  Mirrors the
`genai.Part` cases used by the repository. -/
inductive Part : Type where
  | text (t : String) : Part
  | functionCall (name : String) (args : JsonVal) : Part
  | functionResponse (name : String) (response : JsonVal) : Part

/-- A model turn: role plus ordered parts.  Mirrors `genai.Content`. -/
structure Content : Type where
  role : String
  parts : List Part

/-- A model response carried by an event.  Mirrors `llm.Response`
(`Content` pointer plus the `Partial` streaming flag); `content = none`
models a nil `Content` pointer. -/
structure Response : Type where
  content : Option Content
  isPartial : Bool

/-- A session event.  `llmResponse = none` models a nil `LLMResponse`
pointer.  Only the fields the verified claims read are carried. -/
structure Event : Type where
  author : String
  branch : String
  llmResponse : Option Response

/-- Event-actions side-effect record (`session.Actions`); the transfer
tool writes the requested target agent name into `transferToAgent`. -/
structure EventActions : Type where
  transferToAgent : String
deriving DecidableEq, Repr

/-- Per-agent data of the agent tree: name, whether the Go value is an
LLM agent (the `llminternal.Agent` type assertion succeeds), the model
name when a model is attached (nil model = `none`), and the two transfer
permission flags. -/
structure AgentData : Type where
  name : String
  isLLM : Bool
  modelName : Option String
  disallowTransferToParent : Bool
  disallowTransferToPeers : Bool
deriving DecidableEq, Repr

/-- An agent tree node: agent data plus the owned ordered sub-agent list,
mirroring `agent.Agent` with `SubAgents()`. -/
inductive Agent : Type where
  | node (d : AgentData) (subs : List Agent) : Agent

/-- Data of an agent node. -/
def Agent.data : Agent → AgentData
  | .node d _ => d

/-- Sub-agents of an agent node, mirroring `SubAgents()`. -/
def Agent.subs : Agent → List Agent
  | .node _ s => s

/-- Name of an agent, mirroring `Name()`. -/
def Agent.name (a : Agent) : String := a.data.name

mutual

/-- Depth-first search for an agent by name, mirroring `findAgent` in
`runner.go` / part_002 (returns the current agent when the name matches,
otherwise the first match among sub-agents in order). -/
def findAgent (cur : Agent) (targetName : String) : Option Agent :=
  match cur with
  | .node d subs =>
    if d.name = targetName then some (.node d subs)
    else findAgentInList subs targetName

/-- DFS over a list of sibling subtrees, first match wins. -/
def findAgentInList (l : List Agent) (targetName : String) : Option Agent :=
  match l with
  | [] => none
  | a :: rest =>
    match findAgent a targetName with
    | some found => some found
    | none => findAgentInList rest targetName

end

mutual

/-- Number of agents in a tree (used as loop fuel for parent-chain walks;
the Go loop terminates because the tree is acyclic, and any root-directed
chain is shorter than the tree size). -/
def Agent.size : Agent → Nat
  | .node _ subs => 1 + sizeAgentList subs

/-- Total size of a list of agent subtrees. -/
def sizeAgentList : List Agent → Nat
  | [] => 0
  | a :: rest => a.size + sizeAgentList rest

end

mutual

/-- Parent lookup, the semantics of the `parentmap.Map` built by
`parentmap.New(root)`: returns the unique node of the tree having a
direct child with the given name (names are unique by tree invariant),
`none` for the root or an unknown name, mirroring a missing map entry
(nil) in Go. -/
def parentOf (cur : Agent) (childName : String) : Option Agent :=
  match cur with
  | .node d subs =>
    if subs.any (fun s => s.name == childName) then some (.node d subs)
    else parentOfInList subs childName

/-- Parent lookup across a list of sibling subtrees. -/
def parentOfInList (l : List Agent) (childName : String) : Option Agent :=
  match l with
  | [] => none
  | a :: rest =>
    match parentOf a childName with
    | some p => some p
    | none => parentOfInList rest childName

end

mutual

/-- Preorder list of all agent names in a tree. -/
def namesList : Agent → List String
  | .node d subs => d.name :: namesOfList subs

/-- Concatenated preorder names of a list of subtrees. -/
def namesOfList : List Agent → List String
  | [] => []
  | a :: rest => namesList a ++ namesOfList rest

end

/-- Parent chain starting at `a` and following `parentOf root` upward,
cut off by `fuel` (instantiated with `root.size`, an upper bound on any
chain in the tree).  This is the sequence of values taken by `curAgent`
in the loop of `isTransferableAcrossAgentTree`. -/
def chainToRoot (root : Agent) : Nat → Agent → List Agent
  | 0, a => [a]
  | Nat.succ fuel, a =>
    a :: (match parentOf root a.name with
          | none => []
          | some p => chainToRoot root fuel p)

/-- Loop body of `isTransferableAcrossAgentTree` (part_002 lines 207-220
and runner.go lines 168-182): one iteration per element of the parent
chain, but — exactly as in the source — each iteration performs the type
assertion and reads `DisallowTransferToParent` on `agentToRun`, not on
the chain element being visited. -/
def transferableLoop (agentToRun : Agent) : List Agent → Bool
  | [] => true
  | _cur :: rest =>
    if !agentToRun.data.isLLM then false
    else if agentToRun.data.disallowTransferToParent then false
    else transferableLoop agentToRun rest

/-- Mirrors `isTransferableAcrossAgentTree`: walks the parent chain of
`agentToRun`, checking the (loop-invariant) condition on `agentToRun` at
every step. -/
def isTransferableAcrossAgentTree (root agentToRun : Agent) : Bool :=
  transferableLoop agentToRun (chainToRoot root root.size agentToRun)

/-- Backward scan of `findAgentToRun` (part_002 lines 179-204, runner.go
lines 141-165), applied to the event list already reversed: skip events
authored by the literal user marker, skip events whose author resolves to
no agent in the tree, return the first resolved agent accepted by
`isTransferableAcrossAgentTree`, and fall back to the root. -/
def findAgentToRunLoop (root : Agent) : List Event → Agent
  | [] => root
  | e :: rest =>
    if e.author = "user" then findAgentToRunLoop root rest
    else
      match findAgent root e.author with
      | none => findAgentToRunLoop root rest
      | some subAgent =>
        if isTransferableAcrossAgentTree root subAgent then subAgent
        else findAgentToRunLoop root rest

/-- Mirrors `findAgentToRun`: scans session events from the most recent
backward. -/
def findAgentToRun (root : Agent) (events : List Event) : Agent :=
  findAgentToRunLoop root events.reverse

/-- Event built by `appendMessageToSession` for the incoming user
message: author is the literal user marker, `LLMResponse` wraps the
content (ID/invocation/timestamp fields are not modelled). -/
def newUserEvent (msg : Option Content) : Event :=
  { author := "user", branch := "", llmResponse := some { content := msg, isPartial := false } }

/-- Mirrors `appendMessageToSession` of the parentmap-based runner
(part_002 lines 160-175): a nil message appends nothing; otherwise one
user-authored event carrying the message is appended. -/
def appendMessageToSession (log : List Event) (msg : Option Content) : List Event :=
  match msg with
  | none => log
  | some m => log ++ [newUserEvent (some m)]

/-- Mirrors `appendMessageToSession` of the types-based runner
(runner.go lines 125-137): no nil check, so a user-authored event is
appended unconditionally, with nil content when the message is nil. -/
def appendMessageToSessionTypes (log : List Event) (msg : Option Content) : List Event :=
  log ++ [newUserEvent msg]

/-- Mirrors `setupCFC` (part_002 lines 140-158): requires an LLM agent
with a model whose name starts with "gemini-2". -/
def setupCFC (a : Agent) : Except String Unit :=
  if !a.data.isLLM then .error "agent is not an LLMAgent"
  else
    match a.data.modelName with
    | none => .error "LLMAgent has no model"
    | some m =>
      if m.startsWith "gemini-2" then .ok ()
      else .error "CFC is not supported for model"

/-- Run configuration (`RunConfig` with the fields the runner reads). -/
structure RunConfig : Type where
  supportCFC : Bool
  streamingMode : String
deriving DecidableEq, Repr

/-- Mirrors the unconditional `cfg.StreamingMode` read at part_002 line
93 (`runconfig.ToContext(ctx, &runconfig.RunConfig{StreamingMode:
runconfig.StreamingMode(cfg.StreamingMode)})`): outer `none` models the
nil-pointer dereference panic when `cfg` is nil. -/
def installRunConfig (cfg : Option RunConfig) (agentToRun : Agent) :
    Option (Except String (Agent × String)) :=
  match cfg with
  | none => none
  | some c => some (.ok (agentToRun, c.streamingMode))

/-- Prelude of the parentmap-based `Runner.Run` (part_002 lines 63-107)
up to and including the run-config installation: session lookup (`none`
input models a `Get` error), agent resolution, the CFC branch guarded by
`cfg != nil && cfg.SupportCFC`, then the unguarded `cfg.StreamingMode`
read.  The result is `none` exactly when that read dereferences nil. -/
def runPrelude (sessionResult : Option (List Event)) (root : Agent)
    (cfg : Option RunConfig) : Option (Except String (Agent × String)) :=
  match sessionResult with
  | none => some (.error "session lookup failed")
  | some events =>
    let agentToRun := findAgentToRun root events
    if (match cfg with | some c => c.supportCFC | none => false) then
      match setupCFC agentToRun with
      | .error e => some (.error ("failed to setup CFC: " ++ e))
      | .ok _ => installRunConfig cfg agentToRun
    else installRunConfig cfg agentToRun

/-- One observable action of the runner's event loop: an append to the
session log or a yield to the external caller. -/
inductive RunAction : Type where
  | append (e : Event) : RunAction
  | yieldOut (e : Option Event) (err : Option String) : RunAction

/-- The Go partiality test `event.LLMResponse != nil &&
event.LLMResponse.Partial` (part_002 line 123). -/
def eventPartial (e : Event) : Bool :=
  match e.llmResponse with
  | some r => r.isPartial
  | none => false

/-- Mirrors the persist-and-yield loop of the parentmap-based
`Runner.Run` (part_002 lines 114-136).  Inputs: the (event, error) items
produced by the agent in order; `appendErr e` is true when the session
service fails to append `e`; `budget` is the number of yields after which
the external caller stops consuming (the `yield` call that returns
false).  Output: the ordered trace of appends and yields.  An item with a
nil event and nil error would make the Go code dereference a nil event
pointer in the partiality test; that panic is modelled as halting with no
further actions. -/
def runnerEventLoop (appendErr : Event → Bool) :
    List (Option Event × Option String) → Nat → List RunAction
  | [], _ => []
  | (ev, some errMsg) :: rest, budget =>
    .yieldOut ev (some errMsg) ::
      (match budget with
       | 0 => []
       | Nat.succ b => runnerEventLoop appendErr rest b)
  | (some e, none) :: rest, budget =>
    if eventPartial e then
      .yieldOut (some e) none ::
        (match budget with
         | 0 => []
         | Nat.succ b => runnerEventLoop appendErr rest b)
    else if appendErr e then
      [.yieldOut none (some "failed to add event to session")]
    else
      .append e :: .yieldOut (some e) none ::
        (match budget with
         | 0 => []
         | Nat.succ b => runnerEventLoop appendErr rest b)
  | (none, none) :: _, _ => []

/-- Modelled from the spec: the transfer acceptance test of §4.6 step 1,
missing from the snapshot as an implementation ("Accept the resolved
agent as the active agent only if it and every ancestor up to the root
permit upward transfer along the chain actually traversed"), used to
compare the source's `isTransferableAcrossAgentTree` against the spec's
words: every agent on the chain must be model-backed and must not set
`disallowTransferToParent`. -/
def specChainTransferable (root a : Agent) : Bool :=
  (chainToRoot root root.size a).all
    (fun c => c.data.isLLM && !c.data.disallowTransferToParent)

/-- Modelled from the spec: the backward scan of §4.6 step 1 with the
spec's chain acceptance test in place of the source's. -/
def specFindAgentToRunLoop (root : Agent) : List Event → Agent
  | [] => root
  | e :: rest =>
    if e.author = "user" then specFindAgentToRunLoop root rest
    else
      match findAgent root e.author with
      | none => specFindAgentToRunLoop root rest
      | some subAgent =>
        if specChainTransferable root subAgent then subAgent
        else specFindAgentToRunLoop root rest

/-- Modelled from the spec: agent resolution as §4.6 step 1 describes it. -/
def specFindAgentToRun (root : Agent) (events : List Event) : Agent :=
  specFindAgentToRunLoop root events.reverse

/-- Modelled from the spec: branch scoping of the Contents Request
Processor (§4.3 item 1, implementation missing from the snapshot), on
whole dot-separated path segments as in the spec's example — context
branch "b1" admits event branches "", "b1", "b1.t1" and rejects "b12"
and "b2". -/
def branchVisible (ctxBranch evBranch : String) : Bool :=
  evBranch == "" || evBranch == ctxBranch ||
    List.isPrefixOf (ctxBranch ++ ".").data evBranch.data

/-- Modelled from the spec: the one-line human-readable summary of a
foreign part (§4.3 item 2), with the exact formats pinned by
`TestConvertForeignEvent` in the snapshot's test file. -/
def describeForeignPart (author : String) : Part → String
  | .text t => "[" ++ author ++ "] said: " ++ t
  | .functionCall f args =>
      "[" ++ author ++ "] called tool \"" ++ f ++ "\" with parameters: " ++ jsonEncode args
  | .functionResponse f resp =>
      "[" ++ author ++ "] \"" ++ f ++ "\" tool returned result: " ++ jsonEncode resp

/-- Modelled from the spec: the one-line summary of a foreign event's
content ("a one-line human-readable summary of what happened"),
summarising its (in the spec and tests, unique) leading part. -/
def describeForeignContent (author : String) (c : Content) : String :=
  describeForeignPart author (c.parts.headD (.text ""))

/-- Modelled from the spec: `ConvertForeignEvent` (§4.3 item 2,
implementation missing from the snapshot): the content of an event
authored by a foreign agent is replaced by a single user-role turn with
two text parts, the fixed marker "For context:" and the one-line
summary; author becomes the user marker, other fields are preserved.
Events without content are left unchanged (they are skipped upstream). -/
def convertForeignEvent (e : Event) : Event :=
  match e.llmResponse with
  | none => e
  | some resp =>
    match resp.content with
    | none => e
    | some c =>
      { e with
        author := "user",
        llmResponse := some { resp with content := some {
          role := "user",
          parts := [.text "For context:", .text (describeForeignContent e.author c)] } } }

/-- An author is foreign when it is neither the user marker nor the
current agent. -/
def isForeignAuthor (curName author : String) : Bool :=
  author != "user" && author != curName

/-- Modelled from the spec: the skip rule of §4.3 ("Events with no
content, or whose sole content is an internal credential-requested tool
call, are skipped entirely"). -/
def eventKept (e : Event) : Bool :=
  match e.llmResponse with
  | none => false
  | some resp =>
    match resp.content with
    | none => false
    | some c =>
      match c.parts with
      | [.functionCall n _] => !(n == "adk_request_credential")
      | _ => true

/-- Modelled from the spec: the current-turn suffix used by the
restricted inclusion mode (§4.3 item 3): the turn starts at the most
recent event authored by the user marker or by a foreign agent; when no
such event exists the whole history is the turn. -/
def currentTurnSuffix (curName : String) (events : List Event) : List Event :=
  match events.reverse.findIdx? (fun e => e.author == "user" || isForeignAuthor curName e.author) with
  | none => events
  | some i => events.drop (events.length - 1 - i)

/-- Modelled from the spec: the Contents Request Processor (§4.3,
implementation missing from the snapshot; behavior pinned by
`TestContentsRequestProcessor` and `TestContentsRequestProcessor_IncludeContents`).
Returns the list of turns appended to the request: nothing for a
non-model-backed agent; otherwise the branch-filtered history, restricted
to the current turn when the inclusion mode is the string "none", with
skipped events removed, foreign events converted, and contents
extracted. -/
def contentsRequestProcessor (curName : String) (curIsLLM : Bool)
    (includeContents : String) (ctxBranch : String) (events : List Event) : List Content :=
  if !curIsLLM then []
  else
    let visible := events.filter (fun e => branchVisible ctxBranch e.branch)
    let selected := if includeContents == "none" then currentTurnSuffix curName visible else visible
    ((selected.filter eventKept).map
      (fun e => if isForeignAuthor curName e.author then convertForeignEvent e else e)).filterMap
      (fun e =>
        match e.llmResponse with
        | some resp => resp.content
        | none => none)

/-- Modelled from the spec: the transfer target set of §4.4
(implementation missing from the snapshot): the parent when present and
transfer-to-parent is permitted, the parent's other children when the
parent is present and transfer-to-peers is permitted, and all direct
sub-agents unconditionally. -/
def transferTargets (root cur : Agent) : List Agent :=
  (match parentOf root cur.name with
   | some p =>
     (if !cur.data.disallowTransferToParent then [p] else []) ++
     (if !cur.data.disallowTransferToPeers then
        p.subs.filter (fun s => !(s.name == cur.name))
      else [])
   | none => []) ++ cur.subs

/-- The fixed tool name of the transfer capability. -/
def transferToAgentToolName : String := "transfer_to_agent"

/-- A model-bound request: turns, registered tool names, declared
function names, and appended system-instruction texts (the parts of
`llm.Request` the transfer processor mutates). -/
structure LlmRequest : Type where
  contents : List Content
  toolNames : List String
  functionDeclNames : List String
  systemInstruction : List String

/-- Modelled from the spec: the system-instruction text of §4.4,
enumerating the legal target agents by name. -/
def transferSystemInstruction (targets : List Agent) : String :=
  "You have a list of other agents to transfer to: " ++
    String.intercalate ", " (targets.map (fun a => a.name))

/-- Modelled from the spec: the Agent Transfer Processor (§4.4,
implementation missing from the snapshot; behavior pinned by
`TestAgentTransferRequestProcessor`): a strict no-op for a
non-model-backed agent or an empty target set; otherwise registers the
transfer tool, appends its function declaration, and appends the
enumerating system instruction. -/
def agentTransferRequestProcessor (root cur : Agent) (req : LlmRequest) : LlmRequest :=
  if !cur.data.isLLM then req
  else
    let targets := transferTargets root cur
    if targets.isEmpty then req
    else
      { req with
        toolNames := req.toolNames ++ [transferToAgentToolName],
        functionDeclNames := req.functionDeclNames ++ [transferToAgentToolName],
        systemInstruction := req.systemInstruction ++ [transferSystemInstruction targets] }

/-- Typed tool failure (§4.5 / §7 taxonomy). -/
inductive ToolError : Type where
  | invalidArgument (msg : String) : ToolError
deriving DecidableEq, Repr

/-- Modelled from the spec: `TransferToAgentTool.Run` (§4.5,
implementation missing from the snapshot; behavior pinned by
`TestTransferToAgentToolRun`): the argument mapping (`none` models a nil
Go map) must contain a non-empty string under "agent_name"; on success
the name is recorded in the event-actions record and an acknowledgement
is returned. -/
def transferToAgentToolRun (args : Option (List (String × JsonVal)))
    (actions : EventActions) : Except ToolError (EventActions × String) :=
  match (args.getD []).lookup "agent_name" with
  | some (.str s) =>
    if s == "" then .error (.invalidArgument "agent_name must not be empty")
    else .ok ({ actions with transferToAgent := s }, "ok")
  | some _ => .error (.invalidArgument "agent_name must be a string")
  | none => .error (.invalidArgument "agent_name is required")

/-! Concrete fixtures used by counterexamples and witnesses. -/

/-- A leaf LLM agent that permits every transfer. -/
def demoChild : Agent :=
  .node { name := "child", isLLM := true, modelName := some "gemini-2.0",
          disallowTransferToParent := false, disallowTransferToPeers := false } []

/-- A root LLM agent with `DisallowTransferToParent` set, whose only
sub-agent is `demoChild`. -/
def demoRoot : Agent :=
  .node { name := "root", isLLM := true, modelName := some "gemini-2.0",
          disallowTransferToParent := true, disallowTransferToPeers := false } [demoChild]

/-- A session history whose most recent event is authored by `child`. -/
def demoEvents : List Event :=
  [ { author := "user", branch := "", llmResponse := none },
    { author := "child", branch := "", llmResponse := none } ]

/-- C1: Agent resolution: the claim requires findAgentToRun to accept a
resolved agent only if no agent on the traversed parent chain has
DisallowTransferToParent set, falling back to the root otherwise.  The
code walks the chain but tests `agentToRun` instead of the chain element
at every iteration (part_002 lines 208-216, runner.go lines 169-178),
contradicting its own comment "checks if the agent and its parent chain
allow transfer up the tree": with the root disallowing transfer to
parent and its child permitting it, a history ending in a child-authored
event resolves to the child, while the spec's chain test rejects the
child and falls back to the root. -/
theorem findAgentToRun_ignores_ancestor_flag :
    findAgentToRun demoRoot demoEvents = demoChild ∧
    specChainTransferable demoRoot demoChild = false ∧
    specFindAgentToRun demoRoot demoEvents = demoRoot ∧
    (findAgentToRun demoRoot demoEvents).name = "child" ∧
    (specFindAgentToRun demoRoot demoEvents).name = "root" ∧
    demoRoot.data.disallowTransferToParent = true ∧
    demoChild.data.disallowTransferToParent = false :=
  ⟨rfl, rfl, rfl, rfl, rfl, rfl, rfl⟩

/-- C10: Non-nil run config is a precondition of the parentmap-based
Runner.Run: with any non-nil config the modelled prelude never reaches
the nil dereference, while with a nil config every call whose session
lookup succeeds reaches the unguarded `cfg.StreamingMode` read (modelled
as the outer `none`), whatever the resolved agent is. -/
theorem runPrelude_nil_cfg (sessionResult : Option (List Event)) (root : Agent)
    (c : RunConfig) (events : List Event) :
    (∃ r, runPrelude sessionResult root (some c) = some r) ∧
    runPrelude (some events) root none = none := by
  constructor
  · cases sessionResult with
    | none => exact ⟨.error "session lookup failed", rfl⟩
    | some evs =>
      cases hc : c.supportCFC
      · exact ⟨.ok (findAgentToRun root evs, c.streamingMode), by
          simp [runPrelude, installRunConfig, hc]⟩
      · cases hs : setupCFC (findAgentToRun root evs) with
        | error msg => exact ⟨.error ("failed to setup CFC: " ++ msg), by
            simp [runPrelude, installRunConfig, hc, hs]⟩
        | ok u => exact ⟨.ok (findAgentToRun root evs, c.streamingMode), by
            simp [runPrelude, installRunConfig, hc, hs]⟩
  · simp [runPrelude, installRunConfig]

/-- C8 counterexample: the claim states that when no message is provided
(nil), no user event is appended and the session log is left unchanged;
but `appendMessageToSession` of the types-based runner (runner.go lines
125-137) has no nil check, so on the empty log and a nil message it
still appends a user-authored event with nil content. -/
theorem appendMessageToSessionTypes_nil_appends :
    appendMessageToSessionTypes [] none = [newUserEvent none] ∧
    (appendMessageToSessionTypes [] none).length = 1 ∧
    (newUserEvent none).author = "user" ∧
    ([] : List Event).length = 0 :=
  ⟨rfl, rfl, rfl, rfl⟩

/-- C8 amended: in the parentmap-based Runner.Run the incoming user
message, if provided, is appended exactly once as a user-authored event
carrying that content, and a nil message appends nothing; the types-based
Runner.Run instead appends exactly one user-authored event
unconditionally, carrying the message content when provided and nil
content when not. -/
theorem appendMessageToSession_amended (log : List Event) (m : Content) (msg : Option Content) :
    appendMessageToSession log none = log ∧
    appendMessageToSession log (some m) = log ++ [newUserEvent (some m)] ∧
    (newUserEvent (some m)).author = "user" ∧
    (newUserEvent (some m)).llmResponse = some { content := some m, isPartial := false } ∧
    appendMessageToSessionTypes log msg = log ++ [newUserEvent msg] :=
  ⟨rfl, rfl, rfl, rfl, rfl⟩

/-- Every successful yield of a non-partial event in the loop trace is
preceded (in fact immediately) by its append, for agents whose error
items carry no event (the Go iterator convention). -/
theorem runnerEventLoop_yield_after_append (appendErr : Event → Bool) :
    ∀ (items : List (Option Event × Option String)) (budget : Nat),
      (∀ it ∈ items, it.2.isSome → it.1 = none) →
      ∀ pre e post,
        runnerEventLoop appendErr items budget =
          pre ++ RunAction.yieldOut (some e) none :: post →
        eventPartial e = false → RunAction.append e ∈ pre := by
  intro items
  induction items with
  | nil =>
    intro budget hconv pre e post htr hp
    cases pre <;> simp [runnerEventLoop] at htr
  | cons it rest ih =>
    intro budget hconv pre e post htr hp
    obtain ⟨ev, errOpt⟩ := it
    have hconvRest : ∀ it2 ∈ rest, it2.2.isSome → it2.1 = none := by
      intro it2 h2 hs
      exact hconv it2 (List.mem_cons_of_mem _ h2) hs
    cases errOpt with
    | some errMsg =>
      have hev : ev = none := hconv (ev, some errMsg) (List.mem_cons_self _ _) rfl
      subst hev
      simp only [runnerEventLoop] at htr
      cases pre with
      | nil => simp at htr
      | cons p0 pre2 =>
        simp only [List.cons_append, List.cons.injEq] at htr
        cases budget with
        | zero =>
          exact absurd htr.2 (by simp)
        | succ b =>
          exact List.mem_cons_of_mem _ (ih b hconvRest pre2 e post htr.2 hp)
    | none =>
      cases ev with
      | none =>
        simp only [runnerEventLoop] at htr
        cases pre <;> simp at htr
      | some e0 =>
        simp only [runnerEventLoop] at htr
        by_cases hpart : eventPartial e0 = true
        · rw [if_pos hpart] at htr
          cases pre with
          | nil =>
            simp only [List.nil_append, List.cons.injEq, RunAction.yieldOut.injEq,
              Option.some.injEq] at htr
            rw [htr.1.1] at hpart
            rw [hp] at hpart
            exact absurd hpart (by simp)
          | cons p0 pre2 =>
            simp only [List.cons_append, List.cons.injEq] at htr
            cases budget with
            | zero => exact absurd htr.2 (by simp)
            | succ b =>
              exact List.mem_cons_of_mem _ (ih b hconvRest pre2 e post htr.2 hp)
        · rw [if_neg hpart] at htr
          by_cases hap : appendErr e0 = true
          · rw [if_pos hap] at htr
            cases pre with
            | nil => simp at htr
            | cons p0 pre2 =>
              simp only [List.cons_append, List.cons.injEq] at htr
              exact absurd htr.2 (by simp [List.append_eq_nil])
          · rw [if_neg hap] at htr
            cases pre with
            | nil => simp at htr
            | cons p0 pre2 =>
              simp only [List.cons_append, List.cons.injEq] at htr
              obtain ⟨hp0, htail⟩ := htr
              cases pre2 with
              | nil =>
                simp only [List.nil_append, List.cons.injEq, RunAction.yieldOut.injEq,
                  Option.some.injEq] at htail
                subst hp0
                rw [← htail.1.1]
                exact List.mem_cons_self _ _
              | cons p1 pre3 =>
                simp only [List.cons_append, List.cons.injEq] at htail
                cases budget with
                | zero => exact absurd htail.2 (by simp)
                | succ b =>
                  exact List.mem_cons_of_mem _
                    (List.mem_cons_of_mem _ (ih b hconvRest pre3 e post htail.2 hp))

/-- Appends in the loop trace happen only for non-partial events. -/
theorem runnerEventLoop_append_not_partial (appendErr : Event → Bool) :
    ∀ (items : List (Option Event × Option String)) (budget : Nat) (e : Event),
      RunAction.append e ∈ runnerEventLoop appendErr items budget →
      eventPartial e = false := by
  intro items
  induction items with
  | nil =>
    intro budget e hmem
    simp [runnerEventLoop] at hmem
  | cons it rest ih =>
    intro budget e hmem
    obtain ⟨ev, errOpt⟩ := it
    cases errOpt with
    | some errMsg =>
      cases ev with
      | none =>
        simp only [runnerEventLoop] at hmem
        rcases List.mem_cons.mp hmem with h | h
        · exact absurd h (by simp)
        · cases budget with
          | zero => exact absurd h (by simp)
          | succ b => exact ih b e h
      | some e1 =>
        simp only [runnerEventLoop] at hmem
        rcases List.mem_cons.mp hmem with h | h
        · exact absurd h (by simp)
        · cases budget with
          | zero => exact absurd h (by simp)
          | succ b => exact ih b e h
    | none =>
      cases ev with
      | none => simp [runnerEventLoop] at hmem
      | some e0 =>
        simp only [runnerEventLoop] at hmem
        by_cases hpart : eventPartial e0 = true
        · rw [if_pos hpart] at hmem
          rcases List.mem_cons.mp hmem with h | h
          · exact absurd h (by simp)
          · cases budget with
            | zero => exact absurd h (by simp)
            | succ b => exact ih b e h
        · rw [if_neg hpart] at hmem
          by_cases hap : appendErr e0 = true
          · rw [if_pos hap] at hmem
            rcases List.mem_cons.mp hmem with h | h
            · exact absurd h (by simp)
            · exact absurd h (by simp)
          · rw [if_neg hap] at hmem
            rcases List.mem_cons.mp hmem with h | h
            · have he : e = e0 := by
                simpa [RunAction.append.injEq] using h
              rw [he]
              exact Bool.not_eq_true _ ▸ (by simpa using hpart)
            · rcases List.mem_cons.mp h with h2 | h2
              · exact absurd h2 (by simp)
              · cases budget with
                | zero => exact absurd h2 (by simp)
                | succ b => exact ih b e h2

/-- When the session service never fails and the caller consumes at
least one yield per item, every event item produced by the agent is
yielded, for agents following the Go iterator convention (an item holds
an event or an error, never neither). -/
theorem runnerEventLoop_yields_events (appendErr : Event → Bool)
    (hok : ∀ e, appendErr e = false) :
    ∀ (items : List (Option Event × Option String)) (budget : Nat),
      (∀ it ∈ items, it.1 = none ↔ it.2.isSome) →
      items.length ≤ budget →
      ∀ e, (some e, (none : Option String)) ∈ items →
        RunAction.yieldOut (some e) none ∈ runnerEventLoop appendErr items budget := by
  intro items
  induction items with
  | nil =>
    intro budget hconv hb e hmem
    simp at hmem
  | cons it rest ih =>
    intro budget hconv hb e hmem
    obtain ⟨ev, errOpt⟩ := it
    have hconvRest : ∀ it2 ∈ rest, it2.1 = none ↔ it2.2.isSome := by
      intro it2 h2
      exact hconv it2 (List.mem_cons_of_mem _ h2)
    cases budget with
    | zero => simp at hb
    | succ b =>
      have hb2 : rest.length ≤ b := by simpa using hb
      rcases List.mem_cons.mp hmem with h | h
      · obtain ⟨hev, herr⟩ := Prod.mk.inj h
        subst hev
        subst herr
        simp only [runnerEventLoop]
        by_cases hpart : eventPartial e = true
        · rw [if_pos hpart]
          exact List.mem_cons_self _ _
        · rw [if_neg hpart, if_neg (by simp [hok e])]
          exact List.mem_cons_of_mem _ (List.mem_cons_self _ _)
      · have hrec := ih b hconvRest hb2 e h
        cases errOpt with
        | some errMsg =>
          simp only [runnerEventLoop]
          exact List.mem_cons_of_mem _ hrec
        | none =>
          cases ev with
          | none =>
            have : (none : Option Event) = none ↔ (none : Option String).isSome :=
              hconv (none, none) (List.mem_cons_self _ _)
            simp at this
          | some e0 =>
            simp only [runnerEventLoop]
            by_cases hpart : eventPartial e0 = true
            · rw [if_pos hpart]
              exact List.mem_cons_of_mem _ hrec
            · rw [if_neg hpart, if_neg (by simp [hok e0])]
              exact List.mem_cons_of_mem _ (List.mem_cons_of_mem _ hrec)

/-- C2: Persisted-before-observed: in every run of the modelled
Runner.Run event loop over agent items following the Go iterator
convention (an item carries an event exactly when it carries no error),
every non-partial event yielded to the caller without error is appended
to the session log strictly earlier in the trace; appends only ever
happen for non-partial events, so a partial event is never appended; and
when the session service does not fail and the caller keeps consuming,
every produced event — partial ones included — is yielded. -/
theorem runner_persisted_before_observed
    (appendErr : Event → Bool) (items : List (Option Event × Option String)) (budget : Nat)
    (hconv : ∀ it ∈ items, it.1 = none ↔ it.2.isSome) :
    (∀ pre e post,
        runnerEventLoop appendErr items budget =
          pre ++ RunAction.yieldOut (some e) none :: post →
        eventPartial e = false → RunAction.append e ∈ pre) ∧
    (∀ e, RunAction.append e ∈ runnerEventLoop appendErr items budget →
        eventPartial e = false) ∧
    ((∀ e, appendErr e = false) → items.length ≤ budget →
      ∀ e, (some e, (none : Option String)) ∈ items →
        RunAction.yieldOut (some e) none ∈ runnerEventLoop appendErr items budget) := by
  refine ⟨?_, ?_, ?_⟩
  · intro pre e post htr hp
    exact runnerEventLoop_yield_after_append appendErr items budget
      (fun it hit hs => (hconv it hit).mpr hs) pre e post htr hp
  · intro e hmem
    exact runnerEventLoop_append_not_partial appendErr items budget e hmem
  · intro hok hb e hmem
    exact runnerEventLoop_yields_events appendErr hok items budget hconv hb e hmem

/-- A concrete non-partial agent event. -/
def wNonPartialEvent : Event :=
  { author := "testAgent", branch := "",
    llmResponse := some { content := some { role := "model", parts := [.text "hi"] },
                          isPartial := false } }

/-- A concrete partial (streamed) agent event. -/
def wPartialEvent : Event :=
  { author := "testAgent", branch := "",
    llmResponse := some { content := some { role := "model", parts := [.text "h"] },
                          isPartial := true } }

/-- Witness for C2 at a concrete two-item run. -/
theorem runner_persisted_before_observed_witness :
    RunAction.yieldOut (some wNonPartialEvent) none ∈
      runnerEventLoop (fun _ => false)
        [(some wNonPartialEvent, none), (some wPartialEvent, none)] 3 :=
  (runner_persisted_before_observed (fun _ => false)
      [(some wNonPartialEvent, none), (some wPartialEvent, none)] 3
      (by
        intro it hit
        simp only [List.mem_cons, List.not_mem_nil, or_false] at hit
        rcases hit with rfl | rfl <;> simp)).2.2
    (fun _ => rfl) (by decide) wNonPartialEvent (by simp)

/-- A user-authored text event on a given branch (the shape used by the
FilterByBranch test case). -/
def wBranchEvent (b t : String) : Event :=
  { author := "user", branch := b,
    llmResponse := some { content := some { role := "user", parts := [.text t] },
                          isPartial := false } }

/-- The event history of the FilterByBranch test case. -/
def wBranchEvents : List Event :=
  [ wBranchEvent "branch1" "In branch 1",
    wBranchEvent "branch1.task1" "In branch 1 and task 1",
    wBranchEvent "branch12" "In branch 12",
    wBranchEvent "branch2" "In branch 2" ]

/-- C3: Branch scoping: the Contents Request Processor depends only on
the branch-visible events (filtering the history by `branchVisible`
first changes nothing), and visibility matches the context branch on
whole dot-separated path segments: for context branch "b1" the event
branches "", "b1" and "b1.t1" are admitted while "b12" and "b2" are
rejected — although "b1" is a raw string prefix of "b12" — and on the
FilterByBranch history only the two "branch1"-scoped turns survive. -/
theorem contents_branch_scoping :
    (∀ (curName : String) (curIsLLM : Bool) (includeContents ctxBranch : String)
        (events : List Event),
       contentsRequestProcessor curName curIsLLM includeContents ctxBranch events =
         contentsRequestProcessor curName curIsLLM includeContents ctxBranch
           (events.filter (fun e => branchVisible ctxBranch e.branch))) ∧
    branchVisible "b1" "" = true ∧
    branchVisible "b1" "b1" = true ∧
    branchVisible "b1" "b1.t1" = true ∧
    branchVisible "b1" "b12" = false ∧
    branchVisible "b1" "b2" = false ∧
    List.isPrefixOf "b1".data "b12".data = true ∧
    contentsRequestProcessor "testAgent" true "" "branch1" wBranchEvents =
      [ { role := "user", parts := [.text "In branch 1"] },
        { role := "user", parts := [.text "In branch 1 and task 1"] } ] := by
  refine ⟨?_, by decide, by decide, by decide, by decide, by decide, by decide, rfl⟩
  intro curName curIsLLM includeContents ctxBranch events
  simp only [contentsRequestProcessor, List.filter_filter, Bool.and_self]

/-- The two-user-event history of the helloAndGoodBye test case. -/
def wHelloGoodBye : List Event :=
  [ { author := "user", branch := "",
      llmResponse := some { content := some { role := "user", parts := [.text "hello"] },
                            isPartial := false } },
    { author := "user", branch := "",
      llmResponse := some { content := some { role := "user", parts := [.text "good bye"] },
                            isPartial := false } } ]

/-- C9: Mode equivalence: for every event history, the Contents Request
Processor with the inclusion-contents mode unset (empty string) and with
the mode set to "default" produces identical request content lists;
concretely both modes map the helloAndGoodBye history to the same two
turns. -/
theorem contents_mode_equivalence
    (curName : String) (curIsLLM : Bool) (ctxBranch : String) (events : List Event) :
    contentsRequestProcessor curName curIsLLM "" ctxBranch events =
      contentsRequestProcessor curName curIsLLM "default" ctxBranch events ∧
    contentsRequestProcessor "testAgent" true "" "" wHelloGoodBye =
      [ { role := "user", parts := [.text "hello"] },
        { role := "user", parts := [.text "good bye"] } ] ∧
    contentsRequestProcessor "testAgent" true "default" "" wHelloGoodBye =
      [ { role := "user", parts := [.text "hello"] },
        { role := "user", parts := [.text "good bye"] } ] :=
  ⟨rfl, rfl, rfl⟩

/-- C6: Foreign-event conversion: for every event with content, the
converted event is authored by the user marker and carries a single
user-role turn with exactly two text parts — the fixed marker
"For context:" and the one-line summary — and that summary reads
"[X] said: t" for a text part, "[X] called tool \"f\" with parameters:
<json>" for a function call, and "[X] \"f\" tool returned result:
<json>" for a function response, with the arguments and result
JSON-encoded. -/
theorem convertForeignEvent_shape
    (e : Event) (resp : Response) (c : Content)
    (h1 : e.llmResponse = some resp) (h2 : resp.content = some c) :
    (convertForeignEvent e).llmResponse = some { resp with content := some {
        role := "user",
        parts := [.text "For context:", .text (describeForeignContent e.author c)] } } ∧
    (convertForeignEvent e).author = "user" ∧
    (∀ (author r t : String), describeForeignContent author { role := r, parts := [.text t] } =
        "[" ++ author ++ "] said: " ++ t) ∧
    describeForeignContent "foreign"
        { role := "model", parts := [.functionCall "test" (.obj [("a", .str "b")])] } =
      "[foreign] called tool \"test\" with parameters: \x7b\"a\":\"b\"\x7d" ∧
    describeForeignContent "foreign"
        { role := "model", parts := [.functionResponse "test" (.obj [("c", .str "d")])] } =
      "[foreign] \"test\" tool returned result: \x7b\"c\":\"d\"\x7d" := by
  refine ⟨?_, ?_, fun author r t => rfl, by decide, by decide⟩
  · simp [convertForeignEvent, h1, h2]
  · simp [convertForeignEvent, h1, h2]

/-- The Text case event of TestConvertForeignEvent. -/
def wForeignTextEvent : Event :=
  { author := "foreign", branch := "b",
    llmResponse := some { content := some { role := "model", parts := [.text "hello"] },
                          isPartial := false } }

/-- Witness for C6 at the Text test case. -/
theorem convertForeignEvent_shape_witness :
    (convertForeignEvent wForeignTextEvent).llmResponse =
      some {
        content := some {
          role := "user",
          parts := [.text "For context:", .text "[foreign] said: hello"] },
        isPartial := false } ∧
    (convertForeignEvent wForeignTextEvent).author = "user" :=
  have h := convertForeignEvent_shape wForeignTextEvent
    { content := some { role := "model", parts := [.text "hello"] }, isPartial := false }
    { role := "model", parts := [.text "hello"] } rfl rfl
  ⟨h.1.trans rfl, h.2.1⟩

/-- C5: Transfer tool contract: TransferToAgentTool.Run fails with an
InvalidArgument error exactly when the argument mapping has no non-empty
string under "agent_name" (missing key, nil mapping, non-string value,
or empty string), and for every non-empty string value it succeeds,
recording that exact name into the event-actions transfer record. -/
theorem transferToAgentTool_contract
    (args : Option (List (String × JsonVal))) (actions : EventActions) :
    ((∃ msg, transferToAgentToolRun args actions = .error (.invalidArgument msg)) ↔
      ¬ ∃ s, s ≠ "" ∧ (args.getD []).lookup "agent_name" = some (.str s)) ∧
    (∀ s, (args.getD []).lookup "agent_name" = some (.str s) → s ≠ "" →
      transferToAgentToolRun args actions =
        .ok ({ actions with transferToAgent := s }, "ok")) ∧
    (∃ msg, transferToAgentToolRun none actions = .error (.invalidArgument msg)) := by
  refine ⟨?_, ?_, ⟨"agent_name is required", rfl⟩⟩
  · cases hl : (args.getD []).lookup "agent_name" with
    | none => simp [transferToAgentToolRun, hl]
    | some v =>
      cases v with
      | str s =>
        by_cases hs : s = ""
        · subst hs
          simp [transferToAgentToolRun, hl]
        · simp [transferToAgentToolRun, hl, hs]
      | null => simp [transferToAgentToolRun, hl]
      | num n => simp [transferToAgentToolRun, hl]
      | boolean b => simp [transferToAgentToolRun, hl]
      | obj kvs => simp [transferToAgentToolRun, hl]
  · intro s hls hs
    simp [transferToAgentToolRun, hls, hs]

/-- Witness for C5 at the Success test case. -/
theorem transferToAgentTool_contract_witness :
    transferToAgentToolRun (some [("agent_name", .str "TestAgent")])
        { transferToAgent := "" } =
      .ok ({ transferToAgent := "TestAgent" }, "ok") :=
  (transferToAgentTool_contract (some [("agent_name", .str "TestAgent")])
      { transferToAgent := "" }).2.1 "TestAgent" rfl (by decide)

/-- C7: Transfer no-op: whenever the current agent is not model-backed
or its computed transfer-target set is empty, the Agent Transfer
Processor leaves the request completely unchanged: no tool registered,
no function declaration appended, no system-instruction text added. -/
theorem agentTransfer_noop (root cur : Agent) (req : LlmRequest)
    (h : cur.data.isLLM = false ∨ transferTargets root cur = []) :
    agentTransferRequestProcessor root cur req = req := by
  rcases h with h | h
  · simp [agentTransferRequestProcessor, h]
  · by_cases hl : cur.data.isLLM
    · simp [agentTransferRequestProcessor, hl, h]
    · simp [agentTransferRequestProcessor, hl]

/-- The SoloAgent fixture: an LLM agent with no parent, no peers, no
sub-agents. -/
def wSoloAgent : Agent :=
  .node { name := "Current", isLLM := true, modelName := some "m",
          disallowTransferToParent := false, disallowTransferToPeers := false } []

/-- The NotLLMAgent fixture: a non-model-backed agent. -/
def wMockAgent : Agent :=
  .node { name := "mockAgent", isLLM := false, modelName := none,
          disallowTransferToParent := false, disallowTransferToPeers := false } []

/-- The AgentWithDisallowTransfer fixture: an LLM agent disallowing both
parent and peer transfer, with no sub-agents. -/
def wNoTransferAgent : Agent :=
  .node { name := "Current", isLLM := true, modelName := some "m",
          disallowTransferToParent := true, disallowTransferToPeers := true } []

/-- A plain LLM peer agent. -/
def wPeerAgent : Agent :=
  .node { name := "Peer", isLLM := true, modelName := some "m",
          disallowTransferToParent := false, disallowTransferToPeers := false } []

/-- The parent tree of the AgentWithDisallowTransfer fixture. -/
def wNoTransferRoot : Agent :=
  .node { name := "Parent", isLLM := true, modelName := some "m",
          disallowTransferToParent := false, disallowTransferToPeers := false }
    [wNoTransferAgent, wPeerAgent]

/-- The empty model-bound request. -/
def wEmptyRequest : LlmRequest :=
  { contents := [], toolNames := [], functionDeclNames := [], systemInstruction := [] }

/-- Witness for C7 at the SoloAgent, NotLLMAgent and
AgentWithDisallowTransfer test fixtures. -/
theorem agentTransfer_noop_witness :
    agentTransferRequestProcessor wSoloAgent wSoloAgent wEmptyRequest = wEmptyRequest ∧
    agentTransferRequestProcessor wMockAgent wMockAgent wEmptyRequest = wEmptyRequest ∧
    agentTransferRequestProcessor wNoTransferRoot wNoTransferAgent wEmptyRequest =
      wEmptyRequest :=
  ⟨agentTransfer_noop wSoloAgent wSoloAgent wEmptyRequest (Or.inr rfl),
   agentTransfer_noop wMockAgent wMockAgent wEmptyRequest (Or.inl rfl),
   agentTransfer_noop wNoTransferRoot wNoTransferAgent wEmptyRequest (Or.inr rfl)⟩

/-- Occurrence of an agent (as a subtree) in an agent tree. -/
inductive OccursIn : Agent → Agent → Prop where
  | refl (a : Agent) : OccursIn a a
  | child (d : AgentData) (subs : List Agent) (s a : Agent) (hs : s ∈ subs)
      (h : OccursIn s a) : OccursIn (.node d subs) a

/-- The preorder names of a subtree listed in a forest form a sublist of
the forest's names. -/
theorem namesList_sublist_of_mem {s : Agent} :
    ∀ {l : List Agent}, s ∈ l → (namesList s).Sublist (namesOfList l) := by
  intro l
  induction l with
  | nil =>
    intro h
    simp at h
  | cons a rest ih =>
    intro h
    rcases List.mem_cons.mp h with rfl | h2
    · simp only [namesOfList]
      exact List.sublist_append_left _ _
    · refine (ih h2).trans ?_
      simp only [namesOfList]
      exact List.sublist_append_right _ _

/-- The preorder names of any occurring subtree form a sublist of the
whole tree's names. -/
theorem namesList_sublist_of_occursIn {r a : Agent} (h : OccursIn r a) :
    (namesList a).Sublist (namesList r) := by
  induction h with
  | refl a => exact List.Sublist.refl _
  | child d subs s a hs h ih =>
    refine ih.trans ((namesList_sublist_of_mem hs).trans ?_)
    simp only [namesList]
    exact List.sublist_cons_self _ _

/-- The name of a forest member appears in the forest's name list. -/
theorem name_mem_namesOfList {x : Agent} {l : List Agent} (h : x ∈ l) :
    x.name ∈ namesOfList l := by
  have h1 : x.name ∈ namesList x := by
    cases x with
    | node d subs => simp [namesList, Agent.name, Agent.data]
  exact (namesList_sublist_of_mem h).subset h1

mutual

/-- A successful parent lookup returns an occurring node having a child
with the looked-up name. -/
theorem parentOf_occursIn (n : String) (p : Agent) (r : Agent)
    (h : parentOf r n = some p) :
    OccursIn r p ∧ ∃ s ∈ p.subs, s.name = n := by
  cases r with
  | node d subs =>
    rw [parentOf] at h
    by_cases hc : subs.any (fun s => s.name == n)
    · rw [if_pos hc] at h
      obtain rfl := Option.some.inj h
      refine ⟨OccursIn.refl _, ?_⟩
      simp only [List.any_eq_true, beq_iff_eq] at hc
      simpa [Agent.subs] using hc
    · rw [if_neg hc] at h
      obtain ⟨a, ha, hocc, hs⟩ := parentOfInList_occursIn n p subs h
      exact ⟨OccursIn.child d subs a p ha hocc, hs⟩

/-- Parent lookup across a forest: the result occurs in one member. -/
theorem parentOfInList_occursIn (n : String) (p : Agent) (l : List Agent)
    (h : parentOfInList l n = some p) :
    ∃ a ∈ l, OccursIn a p ∧ ∃ s ∈ p.subs, s.name = n := by
  cases l with
  | nil =>
    rw [parentOfInList] at h
    exact absurd h (by simp)
  | cons a rest =>
    rw [parentOfInList] at h
    cases hpa : parentOf a n with
    | some q =>
      rw [hpa] at h
      obtain rfl := Option.some.inj h
      obtain ⟨hocc, hs⟩ := parentOf_occursIn n q a hpa
      exact ⟨a, List.mem_cons_self _ _, hocc, hs⟩
    | none =>
      rw [hpa] at h
      obtain ⟨b, hb, hocc, hs⟩ := parentOfInList_occursIn n p rest h
      exact ⟨b, List.mem_cons_of_mem _ hb, hocc, hs⟩

end

/-- Membership in the modelled transfer target set, unfolded into the
spec's three-way union. -/
theorem mem_transferTargets_iff (root cur x : Agent) :
    x ∈ transferTargets root cur ↔
      ((∃ p, parentOf root cur.name = some p ∧
          cur.data.disallowTransferToParent = false ∧ x = p) ∨
       (∃ p, parentOf root cur.name = some p ∧
          cur.data.disallowTransferToPeers = false ∧ x ∈ p.subs ∧ x.name ≠ cur.name) ∨
       x ∈ cur.subs) := by
  cases hp : parentOf root cur.name with
  | none => simp [transferTargets, hp]
  | some p =>
    by_cases h1 : cur.data.disallowTransferToParent <;>
      by_cases h2 : cur.data.disallowTransferToPeers <;>
        simp [transferTargets, hp, h1, h2, List.mem_append, List.mem_filter,
          beq_eq_false_iff_ne, Bool.not_eq_true', and_assoc]

/-- Under the unique-names tree invariant, an occurring agent never
appears in its own transfer target set. -/
theorem transferTargets_excludes_self (root cur : Agent)
    (hnd : (namesList root).Nodup) (hocc : OccursIn root cur) :
    cur.name ∉ (transferTargets root cur).map Agent.name := by
  intro hmem
  obtain ⟨x, hx, hname⟩ := List.mem_map.mp hmem
  rcases (mem_transferTargets_iff root cur x).mp hx with
    ⟨p, hp, hflag, hxp⟩ | ⟨p, hp, hflag, hxp, hne⟩ | hchild
  · subst hxp
    obtain ⟨hoccp, s, hs, hsname⟩ := parentOf_occursIn cur.name x root hp
    have hndp : (namesList x).Nodup :=
      (namesList_sublist_of_occursIn hoccp).nodup hnd
    cases x with
    | node d subs =>
      have hhead : d.name ∉ namesOfList subs :=
        (List.nodup_cons.mp (by simpa [namesList] using hndp)).1
      have hsmem : s.name ∈ namesOfList subs :=
        name_mem_namesOfList (by simpa [Agent.subs] using hs)
      apply hhead
      have hdname : d.name = cur.name := by
        simpa [Agent.name, Agent.data] using hname
      rw [hsname, ← hdname] at hsmem
      exact hsmem
  · exact hne hname
  · have hndc : (namesList cur).Nodup :=
      (namesList_sublist_of_occursIn hocc).nodup hnd
    cases cur with
    | node d subs =>
      have hhead : d.name ∉ namesOfList subs :=
        (List.nodup_cons.mp (by simpa [namesList] using hndc)).1
      have hsmem : x.name ∈ namesOfList subs :=
        name_mem_namesOfList (by simpa [Agent.subs] using hchild)
      rw [hname] at hsmem
      exact hhead (by simpa [Agent.name, Agent.data] using hsmem)

/-- C4: Transfer target set: the set of agents the Agent Transfer
Processor offers is exactly the union of the parent (when present and
transfer-to-parent is permitted), the parent's other children (when a
parent is present and transfer-to-peers is permitted), and all direct
sub-agents unconditionally; and under the unique-names tree invariant
the current agent's own name is never offered. -/
theorem transferTargets_characterization (root cur x : Agent) :
    (x ∈ transferTargets root cur ↔
      ((∃ p, parentOf root cur.name = some p ∧
          cur.data.disallowTransferToParent = false ∧ x = p) ∨
       (∃ p, parentOf root cur.name = some p ∧
          cur.data.disallowTransferToPeers = false ∧ x ∈ p.subs ∧ x.name ≠ cur.name) ∨
       x ∈ cur.subs)) ∧
    ((namesList root).Nodup → OccursIn root cur →
      cur.name ∉ (transferTargets root cur).map Agent.name) :=
  ⟨mem_transferTargets_iff root cur x,
   fun hnd hocc => transferTargets_excludes_self root cur hnd hocc⟩

/-- The Current agent of the AgentWithParentAndPeersAndSubagents test
fixture, with two sub-agents. -/
def wCurrentAgent : Agent :=
  .node { name := "Current", isLLM := true, modelName := some "m",
          disallowTransferToParent := false, disallowTransferToPeers := false }
    [ .node { name := "Sub1", isLLM := false, modelName := none,
              disallowTransferToParent := false, disallowTransferToPeers := false } [],
      .node { name := "Sub2", isLLM := true, modelName := some "m",
              disallowTransferToParent := false, disallowTransferToPeers := false } [] ]

/-- The Parent root of the AgentWithParentAndPeersAndSubagents fixture. -/
def wParentRoot : Agent :=
  .node { name := "Parent", isLLM := true, modelName := some "m",
          disallowTransferToParent := false, disallowTransferToPeers := false }
    [wCurrentAgent, wPeerAgent]

/-- Witness for C4 at the AgentWithParentAndPeersAndSubagents fixture:
the offered names are exactly Parent, Peer, Sub1, Sub2 and never the
current agent's own name. -/
theorem transferTargets_characterization_witness :
    "Current" ∉ (transferTargets wParentRoot wCurrentAgent).map Agent.name ∧
    (transferTargets wParentRoot wCurrentAgent).map Agent.name =
      ["Parent", "Peer", "Sub1", "Sub2"] := by
  constructor
  · have h := (transferTargets_characterization wParentRoot wCurrentAgent wCurrentAgent).2
      (by decide)
      (OccursIn.child _ _ wCurrentAgent wCurrentAgent (List.mem_cons_self _ _)
        (OccursIn.refl _))
    simpa [wCurrentAgent, Agent.name, Agent.data] using h
  · rfl

end Adk
